import Mathlib

/-!
Verification development for the FEC layer of kcp-go (src/fec.go).

The Go code is shallowly embedded: byte slices become `List Nat`, the
`reedsolomon.Encoder` (an external library, treated by the design as an
opaque erasure-coding capability) becomes a `Codec` record of two
functions carried inside the `FEC` state, and every operation of fec.go
(`newFEC`, `fecDecode`, `markData`, `markFEC`, `input`, `calcECC`)
becomes a pure Lean function with the same control flow.  Machine
integers (`uint32`) are modelled as `Nat` with explicit `% 2^32` at the
one place fec.go can overflow (the group-end computation
`shardBegin + shardSize - 1`).
-/

namespace KcpFec

/-- A payload byte (Go `byte`); kept as `Nat`, contents are opaque. -/
abbrev Byte := Nat

/-- `typeData = 0xf1` from fec.go. -/
def typeData : Nat := 0xf1

/-- `typeFEC = 0xf2` from fec.go. -/
def typeFEC : Nat := 0xf2

/-- `fecHeaderSize = 6` from fec.go. -/
def fecHeaderSize : Nat := 6

/-- `2^32`, the modulus of Go `uint32` arithmetic. -/
def u32 : Nat := 4294967296

/-- `fecPacket` from fec.go: a decoded FEC packet. -/
structure fecPacket where
  seqid : Nat
  flag : Nat
  data : List Byte
  deriving DecidableEq

/-- The opaque erasure-coding capability (`reedsolomon.Encoder`).
`reconstructFn` models `Reconstruct`: it receives the `shardSize`-length
shard array (absent entries `none`) and on success returns the full
shard array.  `encodeFn` models `Encode`: it receives the `dataShards`
data-shard slices and on success returns the parity contents written
into the parity-shard slices. -/
structure Codec where
  reconstructFn : List (Option (List Byte)) → Option (List (List Byte))
  encodeFn : List (List Byte) → Option (List (List Byte))

/-- The `FEC` struct from fec.go.  The scratch fields `shards` and
`shardsflag` are omitted: fec.go resets both at the start of every use,
so they carry no state between calls. -/
structure FEC where
  rx : List fecPacket
  rxlimit : Nat
  dataShards : Nat
  parityShards : Nat
  shardSize : Nat
  next : Nat
  paws : Nat
  codec : Codec

/-- `newFEC` from fec.go.  `rsNew` stands for `reedsolomon.New`, the
construction of the opaque capability (`none` = the library returned an
error). -/
def newFEC (rsNew : Nat → Nat → Option Codec) (rxlimit dataShards parityShards : Nat) :
    Option FEC :=
  if rxlimit < dataShards + parityShards then none
  else
    let shardSize := dataShards + parityShards
    let paws := (4294967295 / shardSize - 1) * shardSize
    match rsNew dataShards parityShards with
    | none => none
    | some c =>
      some { rx := [], rxlimit := rxlimit, dataShards := dataShards,
             parityShards := parityShards, shardSize := shardSize,
             next := 0, paws := paws, codec := c }

/-- `binary.LittleEndian.Uint32` on the first 4 bytes (reads 0 beyond
the end; fec.go would panic there, a caller contract violation). -/
def getUint32LE (l : List Byte) : Nat :=
  l.getD 0 0 % 256 + (l.getD 1 0 % 256) * 256 + (l.getD 2 0 % 256) * 65536 +
    (l.getD 3 0 % 256) * 16777216

/-- `binary.LittleEndian.Uint16` on the first 2 bytes. -/
def getUint16LE (l : List Byte) : Nat :=
  l.getD 0 0 % 256 + (l.getD 1 0 % 256) * 256

/-- `binary.LittleEndian.PutUint32(data, v)`: overwrite the first 4
bytes with the little-endian bytes of `v`. -/
def putUint32LE (v : Nat) (l : List Byte) : List Byte :=
  [v % 256, v / 256 % 256, v / 65536 % 256, v / 16777216 % 256] ++ l.drop 4

/-- `binary.LittleEndian.PutUint16(data[4:], v)`: overwrite bytes 4-5
with the little-endian bytes of `v`. -/
def putUint16At4 (v : Nat) (l : List Byte) : List Byte :=
  l.take 4 ++ [v % 256, v / 256 % 256] ++ l.drop 6

/-- `fecDecode` from fec.go. -/
def fecDecode (data : List Byte) : fecPacket :=
  { seqid := getUint32LE data, flag := getUint16LE (data.drop 4), data := data.drop 6 }

/-- `markData` from fec.go: stamp the header with `next` and `typeData`,
then increment `next` (uint32), wrapping to 0 once it reaches `paws`. -/
def markData (fec : FEC) (data : List Byte) : FEC × List Byte :=
  let data2 := putUint16At4 typeData (putUint32LE fec.next data)
  let n := (fec.next + 1) % u32
  let n := if fec.paws ≤ n then 0 else n
  ({ fec with next := n }, data2)

/-- `markFEC` from fec.go: same as `markData` with kind `typeFEC`. -/
def markFEC (fec : FEC) (data : List Byte) : FEC × List Byte :=
  let data2 := putUint16At4 typeFEC (putUint32LE fec.next data)
  let n := (fec.next + 1) % u32
  let n := if fec.paws ≤ n then 0 else n
  ({ fec with next := n }, data2)

/-- The de-duplicate/insertion-point scan of `input` (fec.go lines
90-99), walking the queue from the tail: the list argument is the
reversed queue and `i` the index of its head in the original queue.
`none` = duplicate seqid found (the Go code returns early);
`some idx` = the Go `insert_idx`. -/
def scanLoopIdx : List fecPacket → Nat → Nat → Option Nat
  | [], _, _ => some 0
  | p :: rest, s, i =>
    if s = p.seqid then none
    else if p.seqid < s then some (i + 1)
    else scanLoopIdx rest s (i - 1)

/-- The result of the tail-first insertion scan on queue `rx`. -/
def findInsert (rx : List fecPacket) (s : Nat) : Option Nat :=
  scanLoopIdx rx.reverse s (rx.length - 1)

/-- The shift-and-insert of fec.go lines 102-108: place `pkt` at
position `idx` (appending when `idx = rx.length`). -/
def insertAt (rx : List fecPacket) (idx : Nat) (pkt : fecPacket) : List fecPacket :=
  rx.take idx ++ pkt :: rx.drop idx

/-- `shardBegin` of fec.go line 110: `seqid - seqid % shardSize`. -/
def shardBeginOf (shardSize seqid : Nat) : Nat :=
  seqid - seqid % shardSize

/-- `shardEnd` of fec.go line 111: `shardBegin + shardSize - 1` in
uint32 arithmetic, hence the `% 2^32`. -/
def shardEndOf (shardSize seqid : Nat) : Nat :=
  (shardBeginOf shardSize seqid + shardSize - 1) % u32

/-- The state accumulated by the window scan of fec.go lines 124-153.
`first` is a Go `int`, initially `-1`. -/
@[ext]
structure ScanState where
  shards : List (Option (List Byte))
  flags : List Bool
  numshard : Nat
  numDataShard : Nat
  first : Int
  maxlen : Nat
  deriving DecidableEq

/-- The all-cleared scan state (fec.go lines 130-133). -/
def initScan (shardSize : Nat) : ScanState :=
  { shards := List.replicate shardSize none, flags := List.replicate shardSize false,
    numshard := 0, numDataShard := 0, first := -1, maxlen := 0 }

/-- The window scan of fec.go lines 135-153: walk the entries of the
search window (with `i` the global queue index of the head), stop at the
first seqid beyond `shardEnd`, and record every entry whose seqid lies
in `[shardBegin, shardEnd]` under its shard index `seqid % shardSize`. -/
def scanShards (shardSize shardBegin shardEnd : Nat) :
    List fecPacket → Nat → ScanState → ScanState
  | [], _, st => st
  | e :: rest, i, st =>
    if shardEnd < e.seqid then st
    else if shardBegin ≤ e.seqid then
      let k := e.seqid % shardSize
      let st2 : ScanState :=
        { shards := st.shards.set k (some e.data),
          flags := st.flags.set k true,
          numshard := st.numshard + 1,
          numDataShard := st.numDataShard + (if e.flag = typeData then 1 else 0),
          first := if st.numshard = 0 then (i : Int) else st.first,
          maxlen := max st.maxlen e.data.length }
      scanShards shardSize shardBegin shardEnd rest (i + 1) st2
    else scanShards shardSize shardBegin shardEnd rest (i + 1) st

/-- The search window of fec.go lines 113-121 applied to the
post-insertion queue: the entries at indices
`[max 0 (idx - shardSize), min (idx + shardSize) (length - 1)]`,
together with the window start index. -/
def windowOf (rx1 : List fecPacket) (idx shardSize : Nat) : List fecPacket × Nat :=
  let sb := idx - shardSize
  let se := min (idx + shardSize) (rx1.length - 1)
  ((rx1.drop sb).take (se + 1 - sb), sb)

/-- The full window scan as run by `input` on the post-insertion queue
`rx1` with insertion index `idx`. -/
def scanOf (f : FEC) (rx1 : List fecPacket) (idx : Nat) (pkt : fecPacket) : ScanState :=
  let w := windowOf rx1 idx f.shardSize
  scanShards f.shardSize (shardBeginOf f.shardSize pkt.seqid)
    (shardEndOf f.shardSize pkt.seqid) w.1 w.2 (initScan f.shardSize)

/-- The contiguous-range removal of fec.go lines 156-157 / 173-174:
drop `cnt` entries starting at index `first`. -/
def removeRange (rx : List fecPacket) (first cnt : Nat) : List fecPacket :=
  rx.take first ++ rx.drop (first + cnt)

/-- The reslice `shards[k] = shards[k][:maxlen]` of fec.go lines
159-163 (payloads shorter than `maxlen` keep their length; extending a
slice into spare capacity is a memory-level effect outside this model,
and every scenario below uses equal-length payloads). -/
def resliceShards (shards : List (Option (List Byte))) (maxlen : Nat) :
    List (Option (List Byte)) :=
  shards.map (fun o => o.map (fun l => l.take maxlen))

/-- The group-resolution block of fec.go lines 123-176, acting on the
post-insertion queue `rx1`: returns the new queue and the recovered
payloads. -/
def resolveGroup (f : FEC) (rx1 : List fecPacket) (idx : Nat) (pkt : fecPacket) :
    List fecPacket × List (List Byte) :=
  if f.dataShards ≤ rx1.length ∧
      shardBeginOf f.shardSize pkt.seqid < shardEndOf f.shardSize pkt.seqid then
    if (scanOf f rx1 idx pkt).numDataShard = f.dataShards then
      (removeRange rx1 (scanOf f rx1 idx pkt).first.toNat (scanOf f rx1 idx pkt).numshard, [])
    else if f.dataShards ≤ (scanOf f rx1 idx pkt).numshard then
      match f.codec.reconstructFn
          (resliceShards (scanOf f rx1 idx pkt).shards (scanOf f rx1 idx pkt).maxlen) with
      | some full =>
        (removeRange rx1 (scanOf f rx1 idx pkt).first.toNat (scanOf f rx1 idx pkt).numshard,
         (List.range f.dataShards).filterMap
           (fun k => if (scanOf f rx1 idx pkt).flags.getD k false then none
                     else some (full.getD k [])))
      | none =>
        (removeRange rx1 (scanOf f rx1 idx pkt).first.toNat (scanOf f rx1 idx pkt).numshard, [])
    else (rx1, [])
  else (rx1, [])

/-- `input` from fec.go: de-duplicate, insert in order, resolve the
packet's shard group, and trim the queue to `rxlimit`. -/
def input (f : FEC) (pkt : fecPacket) : FEC × List (List Byte) :=
  match findInsert f.rx pkt.seqid with
  | none => (f, [])
  | some idx =>
    let rx1 := insertAt f.rx idx pkt
    let r := resolveGroup f rx1 idx pkt
    let rx3 := if f.rxlimit < r.1.length then r.1.drop 1 else r.1
    ({ f with rx := rx3 }, r.2)

/-- `calcECC` from fec.go: reject a wrong shard count, hand the
`[offset:maxlen]` slices of the data payloads to the capability's
`Encode`, and on success return the `parityShards` freshly allocated
`maxlen`-byte parity buffers (zero up to `offset`, then the encoded
content). -/
def calcECC (f : FEC) (data : List (List Byte)) (offset maxlen : Nat) :
    Option (List (List Byte)) :=
  if data.length ≠ f.dataShards then none
  else
    match f.codec.encodeFn (data.map (fun d => (d.take maxlen).drop offset)) with
    | none => none
    | some parityContents =>
      some ((List.range f.parityShards).map
        (fun k => List.replicate offset 0 ++
          parityContents.getD k (List.replicate (maxlen - offset) 0)))

/-- Feed a list of packets to `input` in order, concatenating the
recovered payloads of every call. -/
def feed (f : FEC) : List fecPacket → FEC × List (List Byte)
  | [] => (f, [])
  | p :: ps =>
    let r := input f p
    let s := feed r.1 ps
    (s.1, r.2 ++ s.2)

/-- The receive-queue ordering invariant: strictly increasing seqids. -/
def seqSorted (rx : List fecPacket) : Prop :=
  List.Pairwise (fun a b => a.seqid < b.seqid) rx

instance (rx : List fecPacket) : Decidable (seqSorted rx) := by
  unfold seqSorted
  infer_instance

/-- States of one FEC session: the constructed instance and everything
produced from it by `input`, `markData` and `markFEC` calls. -/
inductive Reachable (rsNew : Nat → Nat → Option Codec) (rxlimit dataShards parityShards : Nat) :
    FEC → Prop
  | init (f : FEC) : newFEC rsNew rxlimit dataShards parityShards = some f →
      Reachable rsNew rxlimit dataShards parityShards f
  | inputStep (f : FEC) (pkt : fecPacket) : Reachable rsNew rxlimit dataShards parityShards f →
      Reachable rsNew rxlimit dataShards parityShards (input f pkt).1
  | dataStep (f : FEC) (buf : List Byte) : Reachable rsNew rxlimit dataShards parityShards f →
      Reachable rsNew rxlimit dataShards parityShards (markData f buf).1
  | fecStep (f : FEC) (buf : List Byte) : Reachable rsNew rxlimit dataShards parityShards f →
      Reachable rsNew rxlimit dataShards parityShards (markFEC f buf).1

theorem findInsert_nil (s : Nat) : findInsert [] s = some 0 := rfl

theorem findInsert_concat (ys : List fecPacket) (y : fecPacket) (s : Nat) :
    findInsert (ys ++ [y]) s =
      if s = y.seqid then none
      else if y.seqid < s then some (ys.length + 1)
      else findInsert ys s := by
  simp only [findInsert, List.reverse_append, List.reverse_cons, List.reverse_nil,
    List.nil_append, List.cons_append, List.length_append, List.length_cons,
    List.length_nil, Nat.zero_add, Nat.add_sub_cancel]
  rfl

theorem findInsert_le_length (rx : List fecPacket) (s : Nat) (idx : Nat)
    (h : findInsert rx s = some idx) : idx ≤ rx.length := by
  induction rx using List.reverseRecOn generalizing idx with
  | nil =>
    rw [findInsert_nil] at h
    injection h with h2
    simp [← h2]
  | append_singleton ys y ih =>
    rw [findInsert_concat] at h
    by_cases h1 : s = y.seqid
    · simp [h1] at h
    · by_cases h2 : y.seqid < s
      · simp [h1, h2] at h
        simp [← h, List.length_append]
      · simp [h1, h2] at h
        have := ih idx h
        simp [List.length_append]
        omega

theorem findInsert_mem_none (rx : List fecPacket) (s : Nat) (hs : seqSorted rx)
    (hm : s ∈ rx.map fecPacket.seqid) : findInsert rx s = none := by
  induction rx using List.reverseRecOn with
  | nil => simp at hm
  | append_singleton ys y ih =>
    rw [findInsert_concat]
    by_cases h1 : s = y.seqid
    · simp [h1]
    · have hys : seqSorted ys := ((List.pairwise_append.mp hs).1)
      have hym : s ∈ ys.map fecPacket.seqid := by
        simp only [List.map_append, List.map_cons, List.map_nil, List.mem_append,
          List.mem_cons, List.not_mem_nil, or_false] at hm
        rcases hm with hm | hm
        · exact hm
        · exact absurd hm h1
      have hlt : s < y.seqid := by
        rcases List.mem_map.mp hym with ⟨a, ha, rfl⟩
        exact (List.pairwise_append.mp hs).2.2 a ha y (List.mem_singleton_self y)
      rw [if_neg h1, if_neg (by omega)]
      exact ih hys hym

theorem length_insertAt (rx : List fecPacket) (idx : Nat) (pkt : fecPacket)
    (h : idx ≤ rx.length) : (insertAt rx idx pkt).length = rx.length + 1 := by
  simp [insertAt, List.length_append, List.length_take, List.length_drop]
  omega

theorem mem_insertAt (rx : List fecPacket) (idx : Nat) (pkt a : fecPacket)
    (h : a ∈ insertAt rx idx pkt) : a = pkt ∨ a ∈ rx := by
  simp only [insertAt, List.mem_append, List.mem_cons] at h
  rcases h with h | h | h
  · exact Or.inr (List.take_subset idx rx h)
  · exact Or.inl h
  · exact Or.inr (List.drop_subset idx rx h)

theorem insertAt_concat (ys : List fecPacket) (y pkt : fecPacket) (idx : Nat)
    (h : idx ≤ ys.length) :
    insertAt (ys ++ [y]) idx pkt = insertAt ys idx pkt ++ [y] := by
  simp only [insertAt]
  rw [List.take_append_of_le_length h, List.drop_append_of_le_length h]
  simp

theorem seqSorted_insertAt (rx : List fecPacket) (idx : Nat) (pkt : fecPacket)
    (hs : seqSorted rx) (hf : findInsert rx pkt.seqid = some idx) :
    seqSorted (insertAt rx idx pkt) := by
  induction rx using List.reverseRecOn generalizing idx with
  | nil =>
    rw [findInsert_nil] at hf
    injection hf with h2
    subst h2
    simp [insertAt, seqSorted]
  | append_singleton ys y ih =>
    rw [findInsert_concat] at hf
    have hys : seqSorted ys := (List.pairwise_append.mp hs).1
    by_cases h1 : pkt.seqid = y.seqid
    · simp [h1] at hf
    · by_cases h2 : y.seqid < pkt.seqid
      · rw [if_neg h1, if_pos h2] at hf
        injection hf with h3
        subst h3
        have hall : insertAt (ys ++ [y]) (ys.length + 1) pkt = (ys ++ [y]) ++ [pkt] := by
          simp [insertAt, List.take_of_length_le, List.drop_of_length_le,
            List.length_append]
        rw [hall]
        rw [seqSorted] at hs ⊢
        rw [List.pairwise_append]
        refine ⟨hs, List.pairwise_singleton _ _, ?_⟩
        intro a ha b hb
        rw [List.mem_singleton] at hb
        rw [hb]
        rcases List.mem_append.mp ha with ha | ha
        · have h4 := (List.pairwise_append.mp hs).2.2 a ha y (List.mem_singleton_self y)
          omega
        · rw [List.mem_singleton] at ha
          rw [ha]
          exact h2
      · rw [if_neg h1, if_neg h2] at hf
        have hidx := findInsert_le_length ys pkt.seqid idx hf
        rw [insertAt_concat ys y pkt idx hidx]
        rw [seqSorted, List.pairwise_append]
        refine ⟨ih idx hys hf, List.pairwise_singleton _ _, ?_⟩
        intro a ha b hb
        rw [List.mem_singleton] at hb
        rw [hb]
        rcases mem_insertAt ys idx pkt a ha with rfl | ha
        · omega
        · exact (List.pairwise_append.mp hs).2.2 a ha y (List.mem_singleton_self y)

theorem removeRange_sublist (rx : List fecPacket) (a c : Nat) :
    List.Sublist (removeRange rx a c) rx := by
  unfold removeRange
  have h1 : List.Sublist (rx.drop (a + c)) (rx.drop a) := by
    have h0 := List.drop_sublist c (rx.drop a)
    rw [List.drop_drop] at h0
    simpa [Nat.add_comm] using h0
  have h2 : List.Sublist (rx.take a ++ rx.drop (a + c)) (rx.take a ++ rx.drop a) :=
    h1.append_left (rx.take a)
  rwa [List.take_append_drop] at h2

theorem resolveGroup_fst_sublist (f : FEC) (rx1 : List fecPacket) (idx : Nat)
    (pkt : fecPacket) : List.Sublist (resolveGroup f rx1 idx pkt).1 rx1 := by
  unfold resolveGroup
  split
  · split
    · exact removeRange_sublist _ _ _
    · split
      · split
        · exact removeRange_sublist _ _ _
        · exact removeRange_sublist _ _ _
      · exact List.Sublist.refl _
  · exact List.Sublist.refl _

theorem input_dup (f : FEC) (pkt : fecPacket) (h : findInsert f.rx pkt.seqid = none) :
    input f pkt = (f, []) := by
  unfold input
  rw [h]

theorem input_eq (f : FEC) (pkt : fecPacket) (idx : Nat)
    (h : findInsert f.rx pkt.seqid = some idx) :
    input f pkt =
      ({ f with rx :=
          if f.rxlimit < (resolveGroup f (insertAt f.rx idx pkt) idx pkt).1.length
          then (resolveGroup f (insertAt f.rx idx pkt) idx pkt).1.drop 1
          else (resolveGroup f (insertAt f.rx idx pkt) idx pkt).1 },
       (resolveGroup f (insertAt f.rx idx pkt) idx pkt).2) := by
  unfold input
  rw [h]

theorem input_fixed_fields (f : FEC) (pkt : fecPacket) :
    (input f pkt).1.rxlimit = f.rxlimit ∧ (input f pkt).1.dataShards = f.dataShards ∧
    (input f pkt).1.parityShards = f.parityShards ∧
    (input f pkt).1.shardSize = f.shardSize ∧ (input f pkt).1.codec = f.codec := by
  cases h : findInsert f.rx pkt.seqid with
  | none => rw [input_dup f pkt h]; exact ⟨rfl, rfl, rfl, rfl, rfl⟩
  | some idx => rw [input_eq f pkt idx h]; exact ⟨rfl, rfl, rfl, rfl, rfl⟩

theorem input_preserves (f : FEC) (pkt : fecPacket) (hs : seqSorted f.rx)
    (hl : f.rx.length ≤ f.rxlimit) :
    seqSorted (input f pkt).1.rx ∧ (input f pkt).1.rx.length ≤ f.rxlimit := by
  cases h : findInsert f.rx pkt.seqid with
  | none => rw [input_dup f pkt h]; exact ⟨hs, hl⟩
  | some idx =>
    rw [input_eq f pkt idx h]
    dsimp only
    have hidx := findInsert_le_length f.rx pkt.seqid idx h
    have hs1 : seqSorted (insertAt f.rx idx pkt) := seqSorted_insertAt f.rx idx pkt hs h
    have hlen1 : (insertAt f.rx idx pkt).length = f.rx.length + 1 :=
      length_insertAt f.rx idx pkt hidx
    have hsub := resolveGroup_fst_sublist f (insertAt f.rx idx pkt) idx pkt
    have hs2 : seqSorted (resolveGroup f (insertAt f.rx idx pkt) idx pkt).1 :=
      hs1.sublist hsub
    have hlen2 : (resolveGroup f (insertAt f.rx idx pkt) idx pkt).1.length ≤
        f.rx.length + 1 := hlen1 ▸ hsub.length_le
    constructor
    · split
      · exact hs2.sublist (List.drop_sublist 1 _)
      · exact hs2
    · split
      · simp only [List.length_drop]
        omega
      · rename_i hnt
        omega

theorem newFEC_some (rsNew : Nat → Nat → Option Codec) (rxl d p : Nat) (f : FEC)
    (h : newFEC rsNew rxl d p = some f) :
    f.rx = [] ∧ f.rxlimit = rxl ∧ f.dataShards = d ∧ f.parityShards = p ∧
    f.shardSize = d + p ∧ f.next = 0 ∧
    f.paws = (4294967295 / (d + p) - 1) * (d + p) ∧
    rsNew d p = some f.codec ∧ ¬ rxl < d + p := by
  unfold newFEC at h
  split at h
  · exact absurd h (by simp)
  · rename_i hge
    cases hrs : rsNew d p with
    | none => rw [hrs] at h; exact absurd h (by simp)
    | some c =>
      rw [hrs] at h
      injection h with h2
      subst h2
      exact ⟨rfl, rfl, rfl, rfl, rfl, rfl, rfl, rfl, hge⟩

/-- C2: after every `input` call, for every reachable queue state, the
receive queue `rx` is strictly ordered by seqid with no duplicate
seqid, and its length is at most `rxlimit`. -/
theorem C2_queue_invariant (rsNew : Nat → Nat → Option Codec) (rxl d p : Nat) (f : FEC)
    (h : Reachable rsNew rxl d p f) :
    seqSorted f.rx ∧ (f.rx.map fecPacket.seqid).Nodup ∧ f.rx.length ≤ f.rxlimit := by
  have main : seqSorted f.rx ∧ f.rx.length ≤ f.rxlimit := by
    induction h with
    | init g h0 =>
      have hg := newFEC_some rsNew rxl d p g h0
      rw [hg.1]
      exact ⟨List.Pairwise.nil, by simp⟩
    | inputStep g pkt hr ih =>
      have hp := input_preserves g pkt ih.1 ih.2
      exact ⟨hp.1, (input_fixed_fields g pkt).1 ▸ hp.2⟩
    | dataStep g buf hr ih => exact ih
    | fecStep g buf hr ih => exact ih
  refine ⟨main.1, ?_, main.2⟩
  have hp : List.Pairwise (fun a b : Nat => a < b) (f.rx.map fecPacket.seqid) :=
    List.pairwise_map.mpr main.1
  exact hp.imp Nat.ne_of_lt

/-- Stand-in for an opaque erasure-coding capability instance. -/
def opaqueCodec : Codec := ⟨fun _ => none, fun _ => none⟩

/-- A `reedsolomon.New` stand-in that always builds. -/
def crsStub : Nat → Nat → Option Codec := fun _ _ => some opaqueCodec

/-- The concrete instance of the spec's example configuration
(`dataShards = 10`, `parityShards = 3`, `rxlimit = 128`). -/
def fecInit : FEC :=
  { rx := [], rxlimit := 128, dataShards := 10, parityShards := 3, shardSize := 13,
    next := 0, paws := (4294967295 / 13 - 1) * 13, codec := opaqueCodec }

/-- A state reached from `fecInit` by two out-of-order `input` calls. -/
def fecTwo : FEC := (input (input fecInit ⟨5, typeData, [1]⟩).1 ⟨3, typeData, [2]⟩).1

theorem C2_queue_invariant_witness :
    seqSorted fecTwo.rx ∧ (fecTwo.rx.map fecPacket.seqid).Nodup ∧
      fecTwo.rx.length ≤ fecTwo.rxlimit :=
  C2_queue_invariant crsStub 128 10 3 fecTwo
    (Reachable.inputStep _ _ (Reachable.inputStep _ _ (Reachable.init fecInit rfl)))

/-- C6: for every packet whose seqid already occurs in the (sorted)
queue, `input` returns no recovered payloads and leaves the whole state
(in particular the queue and its length) unchanged. -/
theorem C6_duplicate_absorbed (f : FEC) (pkt : fecPacket) (hs : seqSorted f.rx)
    (hm : pkt.seqid ∈ f.rx.map fecPacket.seqid) :
    input f pkt = (f, []) :=
  input_dup f pkt (findInsert_mem_none f.rx pkt.seqid hs hm)

theorem C6_duplicate_absorbed_witness :
    seqSorted fecTwo.rx ∧ (3 : Nat) ∈ fecTwo.rx.map fecPacket.seqid ∧
      input fecTwo ⟨3, typeData, [9]⟩ = (fecTwo, []) :=
  ⟨by decide, by decide,
   C6_duplicate_absorbed fecTwo ⟨3, typeData, [9]⟩ (by decide) (by decide)⟩

/-- C7: `newFEC` returns `none` (no partial object) exactly when
`rxlimit < dataShards + parityShards` or the erasure-coding capability
cannot be built; otherwise it returns a fully initialised instance.
(`0 < dataShards + parityShards` is assumed: at zero shards the Go code
divides by zero computing `paws` and panics before either check can
produce a return value.) -/
theorem C7_newFEC (rsNew : Nat → Nat → Option Codec) (rxl d p : Nat)
    (hpos : 0 < d + p) :
    (newFEC rsNew rxl d p = none ↔ rxl < d + p ∨ rsNew d p = none) ∧
    (∀ f, newFEC rsNew rxl d p = some f →
      f.rx = [] ∧ f.rxlimit = rxl ∧ f.dataShards = d ∧ f.parityShards = p ∧
      f.shardSize = d + p ∧ rsNew d p = some f.codec) := by
  constructor
  · unfold newFEC
    split
    · rename_i hlt
      simp [hlt]
    · rename_i hge
      cases hrs : rsNew d p with
      | none => simp [hge, hrs]
      | some c => simp [hge, hrs]
  · intro f hf
    have h := newFEC_some rsNew rxl d p f hf
    exact ⟨h.1, h.2.1, h.2.2.1, h.2.2.2.1, h.2.2.2.2.1, h.2.2.2.2.2.2.2.1⟩

theorem C7_newFEC_witness :
    ((newFEC crsStub 128 10 3 = none ↔ 128 < 10 + 3 ∨ crsStub 10 3 = none) ∧
      (∀ f, newFEC crsStub 128 10 3 = some f →
        f.rx = [] ∧ f.rxlimit = 128 ∧ f.dataShards = 10 ∧ f.parityShards = 3 ∧
        f.shardSize = 10 + 3 ∧ crsStub 10 3 = some f.codec)) ∧
    newFEC crsStub 12 10 3 = none :=
  ⟨C7_newFEC crsStub 128 10 3 (by decide), by rfl⟩

/-- C9: `calcECC` returns `none` exactly when the payload count differs
from `dataShards` or the capability's encode reports an error, and
otherwise returns exactly `parityShards` parity buffers.  (The data
payloads are untouched: the embedding is pure and the returned buffers
are built only from freshly allocated zero bytes and the encode
output.) -/
theorem C9_calcECC (f : FEC) (data : List (List Byte)) (offset maxlen : Nat) :
    (calcECC f data offset maxlen = none ↔
      data.length ≠ f.dataShards ∨
      f.codec.encodeFn (data.map (fun dd => (dd.take maxlen).drop offset)) = none) ∧
    (∀ ecc, calcECC f data offset maxlen = some ecc → ecc.length = f.parityShards) := by
  constructor
  · unfold calcECC
    split
    · rename_i hne
      simp [hne]
    · rename_i hne
      cases he : f.codec.encodeFn (data.map (fun dd => (dd.take maxlen).drop offset)) with
      | none => simp [hne, he]
      | some pc => simp [hne, he]
  · intro ecc hecc
    unfold calcECC at hecc
    split at hecc
    · exact absurd hecc (by simp)
    · cases he : f.codec.encodeFn (data.map (fun dd => (dd.take maxlen).drop offset)) with
      | none => rw [he] at hecc; exact absurd hecc (by simp)
      | some pc =>
        rw [he] at hecc
        injection hecc with h2
        rw [← h2]
        simp

theorem C9_calcECC_witness :
    ((calcECC fecInit [[1], [2]] 0 1 = none ↔
        ([[1], [2]] : List (List Byte)).length ≠ fecInit.dataShards ∨
        fecInit.codec.encodeFn ([[1], [2]].map (fun dd => (dd.take 1).drop 0)) = none) ∧
      (∀ ecc, calcECC fecInit [[1], [2]] 0 1 = some ecc →
        ecc.length = fecInit.parityShards)) ∧
    calcECC fecInit [[1], [2]] 0 1 = none :=
  ⟨C9_calcECC fecInit [[1], [2]] 0 1, by rfl⟩

/-- C10: when the post-insertion queue is still shorter than
`dataShards`, or `shardSize = 1` (so `shardBegin < shardEnd` fails), no
group resolution is attempted: `input` returns no recovered payloads and
the queue is exactly the insertion result, minus at most the single
oldest entry when `rxlimit` is exceeded. -/
theorem C10_no_resolution (f : FEC) (pkt : fecPacket) (idx : Nat)
    (hf : findInsert f.rx pkt.seqid = some idx) (hq : pkt.seqid < u32)
    (hc : (insertAt f.rx idx pkt).length < f.dataShards ∨ f.shardSize = 1) :
    input f pkt =
      ({ f with rx := if f.rxlimit < (insertAt f.rx idx pkt).length
                      then (insertAt f.rx idx pkt).drop 1
                      else insertAt f.rx idx pkt }, []) := by
  rw [input_eq f pkt idx hf]
  have hrg : resolveGroup f (insertAt f.rx idx pkt) idx pkt = (insertAt f.rx idx pkt, []) := by
    unfold resolveGroup
    rw [if_neg]
    intro hand
    rcases hc with hc | hc
    · omega
    · have h1 : shardBeginOf f.shardSize pkt.seqid = pkt.seqid := by
        simp [shardBeginOf, hc, Nat.mod_one]
      have h2 : shardEndOf f.shardSize pkt.seqid = pkt.seqid := by
        simp [shardEndOf, shardBeginOf, hc, Nat.mod_one, Nat.mod_eq_of_lt hq]
      rw [h1, h2] at hand
      omega
  rw [hrg]

theorem putUint16At4_putUint32LE (w v : Nat) (l : List Byte) :
    putUint16At4 v (putUint32LE w l) =
      [w % 256, w / 256 % 256, w / 65536 % 256, w / 16777216 % 256,
       v % 256, v / 256 % 256] ++ l.drop 6 := by
  have h1 : List.drop 6 (putUint32LE w l) = List.drop 2 (List.drop 4 l) := rfl
  have h2 : List.take 4 (putUint32LE w l) =
      [w % 256, w / 256 % 256, w / 65536 % 256, w / 16777216 % 256] := rfl
  unfold putUint16At4
  rw [h1, h2, List.drop_drop]
  norm_num

/-- C8: `markData`/`markFEC` stamp the buffer header with the current
`next` and the kind discriminant (little-endian `0xf1`/`0xf2`), then
increment `next`, wrapping to 0 once it reaches `paws`; `paws` is a
multiple of `shardSize`, and `next` stays in `[0, paws)` across both
operations.  (`dataShards + parityShards ≤ 255` reflects the shard-count
bound of the erasure-coding capability.) -/
theorem C8_mark_and_wrap (rsNew : Nat → Nat → Option Codec) (rxl d p : Nat) (f : FEC)
    (h0 : newFEC rsNew rxl d p = some f) (hub : d + p ≤ 255) (hpos : 0 < d + p) :
    f.shardSize ∣ f.paws ∧ f.next < f.paws ∧
    (∀ (g : FEC) (buf : List Byte), g.paws = f.paws → g.next < g.paws →
      6 ≤ buf.length →
      ((markData g buf).1.next = (if g.paws ≤ g.next + 1 then 0 else g.next + 1) ∧
       (markData g buf).1.next < g.paws ∧
       (markData g buf).2 = [g.next % 256, g.next / 256 % 256, g.next / 65536 % 256,
         g.next / 16777216 % 256, 241, 0] ++ buf.drop 6 ∧
       (markFEC g buf).1.next = (if g.paws ≤ g.next + 1 then 0 else g.next + 1) ∧
       (markFEC g buf).1.next < g.paws ∧
       (markFEC g buf).2 = [g.next % 256, g.next / 256 % 256, g.next / 65536 % 256,
         g.next / 16777216 % 256, 242, 0] ++ buf.drop 6)) := by
  obtain ⟨hrx, hrxl, hd, hp, hss, hnext, hpaws, hcodec, hge⟩ :=
    newFEC_some rsNew rxl d p f h0
  have hq2 : 2 ≤ 4294967295 / (d + p) := by
    rw [Nat.le_div_iff_mul_le hpos]
    omega
  have hpawspos : 0 < f.paws := by
    rw [hpaws]
    exact Nat.mul_pos (by omega) hpos
  have hpawslt : f.paws < u32 := by
    rw [hpaws]
    have h1 : (4294967295 / (d + p) - 1) * (d + p) ≤ (4294967295 / (d + p)) * (d + p) :=
      Nat.mul_le_mul_right _ (by omega)
    have h2 : (4294967295 / (d + p)) * (d + p) ≤ 4294967295 := Nat.div_mul_le_self _ _
    unfold u32
    omega
  refine ⟨?_, ?_, ?_⟩
  · rw [hss, hpaws]
    exact Dvd.intro_left _ rfl
  · omega
  · intro g buf hgp hgn hbuf
    have hglt : g.paws < u32 := by rw [hgp]; exact hpawslt
    have hmod : (g.next + 1) % u32 = g.next + 1 := Nat.mod_eq_of_lt (by omega)
    have hnextd : (markData g buf).1.next =
        (if g.paws ≤ g.next + 1 then 0 else g.next + 1) := by
      simp only [markData, hmod]
    have hnextf : (markFEC g buf).1.next =
        (if g.paws ≤ g.next + 1 then 0 else g.next + 1) := by
      simp only [markFEC, hmod]
    refine ⟨hnextd, ?_, ?_, hnextf, ?_, ?_⟩
    · rw [hnextd]
      split
      · rw [hgp]; exact hpawspos
      · omega
    · show putUint16At4 typeData (putUint32LE g.next buf) = _
      rw [putUint16At4_putUint32LE]
      norm_num [typeData]
    · rw [hnextf]
      split
      · rw [hgp]; exact hpawspos
      · omega
    · show putUint16At4 typeFEC (putUint32LE g.next buf) = _
      rw [putUint16At4_putUint32LE]
      norm_num [typeFEC]

theorem C8_mark_and_wrap_witness :
    fecInit.shardSize ∣ fecInit.paws ∧ fecInit.next < fecInit.paws ∧
      (markData fecInit [9, 9, 9, 9, 9, 9]).2 = [0, 0, 0, 0, 241, 0] ∧
      (markFEC fecInit [9, 9, 9, 9, 9, 9]).2 = [0, 0, 0, 0, 242, 0] ∧
      (markData fecInit [9, 9, 9, 9, 9, 9]).1.next < fecInit.paws := by
  have h := C8_mark_and_wrap crsStub 128 10 3 fecInit rfl (by decide) (by decide)
  have h2 := h.2.2 fecInit [9, 9, 9, 9, 9, 9] rfl h.2.1 (by decide)
  refine ⟨h.1, h.2.1, ?_, ?_, h2.2.1⟩
  · have h3 := h2.2.2.1
    simpa using h3
  · have h3 := h2.2.2.2.2.2
    simpa using h3

theorem C10_no_resolution_witness :
    input fecInit ⟨5, typeData, [1]⟩ = ({ fecInit with rx := [⟨5, typeData, [1]⟩] }, []) := by
  have h := C10_no_resolution fecInit ⟨5, typeData, [1]⟩ 0 (by decide) (by decide)
    (Or.inl (by decide))
  simpa [insertAt] using h

/-- A `dataShards = 1`, `parityShards = 1` instance whose capability
always reports reconstruction failure (the capability is opaque, so this
is a legitimate instantiation for exercising the failure path). -/
def fecFail : FEC :=
  { rx := [], rxlimit := 4, dataShards := 1, parityShards := 1, shardSize := 2,
    next := 0, paws := (4294967295 / 2 - 1) * 2, codec := opaqueCodec }

/-- A parity packet of group `[0, 1]`. -/
def pkt31 : fecPacket := ⟨1, typeFEC, [7, 7, 7, 7]⟩

/-- C3 counterexample: a group reaches the reconstruct branch
(`present = 1 ≥ dataShards = 1`, `presentData = 0 < 1`), the capability
reports failure — and the group's entry is nevertheless removed from the
queue (the removal in fec.go lines 173-174 sits outside the
`err == nil` check), leaving the queue empty instead of retaining the
inserted packet as the claim requires. -/
theorem C3_counterexample :
    newFEC crsStub 4 1 1 = some fecFail ∧
    insertAt fecFail.rx 0 pkt31 = [pkt31] ∧
    fecFail.dataShards ≤ (insertAt fecFail.rx 0 pkt31).length ∧
    (scanOf fecFail (insertAt fecFail.rx 0 pkt31) 0 pkt31).numshard = 1 ∧
    (scanOf fecFail (insertAt fecFail.rx 0 pkt31) 0 pkt31).numDataShard = 0 ∧
    fecFail.codec.reconstructFn
      (resliceShards (scanOf fecFail (insertAt fecFail.rx 0 pkt31) 0 pkt31).shards
        (scanOf fecFail (insertAt fecFail.rx 0 pkt31) 0 pkt31).maxlen) = none ∧
    (input fecFail pkt31).1.rx = [] ∧ (input fecFail pkt31).2 = [] :=
  ⟨rfl, by decide, by decide, by decide, by decide, by decide, by decide, by decide⟩

/-- C3 amended: when a group reaches the reconstruct branch and the
capability reports failure, `input` returns no recovered payloads but
removes the group's scanned entries from the queue exactly as on
success (fec.go performs the removal unconditionally after the
reconstruct attempt). -/
theorem C3_failure_still_removes (f : FEC) (pkt : fecPacket) (idx : Nat)
    (hf : findInsert f.rx pkt.seqid = some idx)
    (hgate : f.dataShards ≤ (insertAt f.rx idx pkt).length ∧
      shardBeginOf f.shardSize pkt.seqid < shardEndOf f.shardSize pkt.seqid)
    (hnd : (scanOf f (insertAt f.rx idx pkt) idx pkt).numDataShard ≠ f.dataShards)
    (hns : f.dataShards ≤ (scanOf f (insertAt f.rx idx pkt) idx pkt).numshard)
    (hfail : f.codec.reconstructFn
      (resliceShards (scanOf f (insertAt f.rx idx pkt) idx pkt).shards
        (scanOf f (insertAt f.rx idx pkt) idx pkt).maxlen) = none) :
    (input f pkt).2 = [] ∧
    (input f pkt).1.rx =
      (if f.rxlimit < (removeRange (insertAt f.rx idx pkt)
            (scanOf f (insertAt f.rx idx pkt) idx pkt).first.toNat
            (scanOf f (insertAt f.rx idx pkt) idx pkt).numshard).length
       then (removeRange (insertAt f.rx idx pkt)
            (scanOf f (insertAt f.rx idx pkt) idx pkt).first.toNat
            (scanOf f (insertAt f.rx idx pkt) idx pkt).numshard).drop 1
       else removeRange (insertAt f.rx idx pkt)
            (scanOf f (insertAt f.rx idx pkt) idx pkt).first.toNat
            (scanOf f (insertAt f.rx idx pkt) idx pkt).numshard) := by
  rw [input_eq f pkt idx hf]
  have hrg : resolveGroup f (insertAt f.rx idx pkt) idx pkt =
      (removeRange (insertAt f.rx idx pkt)
        (scanOf f (insertAt f.rx idx pkt) idx pkt).first.toNat
        (scanOf f (insertAt f.rx idx pkt) idx pkt).numshard, []) := by
    unfold resolveGroup
    rw [if_pos hgate, if_neg hnd, if_pos hns, hfail]
  rw [hrg]
  exact ⟨rfl, rfl⟩

theorem C3_failure_still_removes_witness :
    (input fecFail pkt31).2 = [] ∧ (input fecFail pkt31).1.rx = [] := by
  have h := C3_failure_still_removes fecFail pkt31 0 rfl (by decide) (by decide)
    (by decide) (by decide)
  refine ⟨h.1, ?_⟩
  rw [h.2]
  decide

/-- A `dataShards = 2`, `parityShards = 1` instance (capability never
consulted in the C4 scenarios). -/
def fecC4 : FEC :=
  { rx := [], rxlimit := 8, dataShards := 2, parityShards := 1, shardSize := 3,
    next := 0, paws := (4294967295 / 3 - 1) * 3, codec := opaqueCodec }

/-- C4 counterexample: after inserting seqid 4294967293 into a queue
holding seqid 0, the signed span 4294967293 exceeds 2^31 (and any
plausible overflow threshold below the uint32 range), yet the queue is
not discarded: both entries remain.  fec.go's `input` contains no
span-based overflow guard at all. -/
theorem C4_counterexample :
    newFEC crsStub 8 2 1 = some fecC4 ∧
    ((feed fecC4 [⟨0, typeData, [1]⟩, ⟨4294967293, typeData, [2]⟩]).1.rx.map
      fecPacket.seqid = [0, 4294967293]) ∧
    ((2147483648 : Int) < (4294967293 : Int) - (0 : Int)) ∧
    (feed fecC4 [⟨0, typeData, [1]⟩, ⟨4294967293, typeData, [2]⟩]).1.rx.length ≠ 0 :=
  ⟨rfl, by decide, by decide, by decide⟩

/-- C4 amended: `input` has no overflow guard.  Whenever the call
resolves no group (the packet is inserted and the resolution thresholds
are not met), every previous entry plus the new packet stays in the
queue — except at most the single oldest entry when `rxlimit` is
exceeded — no matter how large the seqid span becomes. -/
theorem C4_no_overflow_reset (f : FEC) (pkt : fecPacket) (idx : Nat)
    (hf : findInsert f.rx pkt.seqid = some idx)
    (hno : ¬ (f.dataShards ≤ (insertAt f.rx idx pkt).length ∧
              shardBeginOf f.shardSize pkt.seqid < shardEndOf f.shardSize pkt.seqid) ∨
           ((scanOf f (insertAt f.rx idx pkt) idx pkt).numDataShard ≠ f.dataShards ∧
            (scanOf f (insertAt f.rx idx pkt) idx pkt).numshard < f.dataShards)) :
    (input f pkt).2 = [] ∧
    (input f pkt).1.rx = (if f.rxlimit < (insertAt f.rx idx pkt).length
                          then (insertAt f.rx idx pkt).drop 1
                          else insertAt f.rx idx pkt) := by
  rw [input_eq f pkt idx hf]
  have hrg : resolveGroup f (insertAt f.rx idx pkt) idx pkt = (insertAt f.rx idx pkt, []) := by
    unfold resolveGroup
    rcases hno with hno | hno
    · rw [if_neg hno]
    · split
      · rw [if_neg hno.1, if_neg (by omega)]
      · rfl
  rw [hrg]
  exact ⟨rfl, rfl⟩

/-- The `k`-th packet of the shard group starting at seqid `B` for a
`dataShards = d` configuration, carrying payload `pl k`: data kind for
shard indices below `d`, parity kind above. -/
def groupPkt (d B : Nat) (pl : Nat → List Byte) (k : Nat) : fecPacket :=
  ⟨B + k, if k < d then typeData else typeFEC, pl k⟩

/-- The shard array holding `pl k` at exactly the indices in
`present`. -/
def maskShards (s : Nat) (present : List Nat) (pl : Nat → List Byte) :
    List (Option (List Byte)) :=
  (List.range s).map (fun k => if k ∈ present then some (pl k) else none)

theorem findInsert_all_lt (rx : List fecPacket) (s : Nat)
    (hgt : ∀ q ∈ rx, q.seqid < s) : findInsert rx s = some rx.length := by
  induction rx using List.reverseRecOn with
  | nil => rfl
  | append_singleton ys y ih =>
    have hy : y.seqid < s := hgt y (by simp)
    rw [findInsert_concat, if_neg (by omega), if_pos hy]
    simp

theorem insertAt_length_self (rx : List fecPacket) (pkt : fecPacket) :
    insertAt rx rx.length pkt = rx ++ [pkt] := by
  simp [insertAt, List.take_of_length_le, List.drop_of_length_le]

theorem input_append_small (f : FEC) (pkt : fecPacket)
    (hgt : ∀ q ∈ f.rx, q.seqid < pkt.seqid)
    (hlen : f.rx.length + 1 < f.dataShards)
    (hcap : f.rx.length + 1 ≤ f.rxlimit) :
    input f pkt = ({ f with rx := f.rx ++ [pkt] }, []) := by
  have hfi : findInsert f.rx pkt.seqid = some f.rx.length :=
    findInsert_all_lt f.rx pkt.seqid hgt
  rw [input_eq f pkt f.rx.length hfi, insertAt_length_self]
  have hrg : resolveGroup f (f.rx ++ [pkt]) f.rx.length pkt = (f.rx ++ [pkt], []) := by
    unfold resolveGroup
    rw [if_neg]
    intro hand
    have h1 := hand.1
    simp only [List.length_append, List.length_cons, List.length_nil] at h1
    omega
  rw [hrg]
  have hnt : ¬ f.rxlimit < (f.rx ++ [pkt]).length := by
    simp only [List.length_append, List.length_cons, List.length_nil]
    omega
  rw [if_neg hnt]

theorem feed_append (f : FEC) (xs ys : List fecPacket) :
    feed f (xs ++ ys) =
      ((feed (feed f xs).1 ys).1, (feed f xs).2 ++ (feed (feed f xs).1 ys).2) := by
  induction xs generalizing f with
  | nil => simp [feed]
  | cons x xs ih =>
    simp only [List.cons_append, feed, List.append_eq, ih, List.append_assoc]

theorem feed_fill (f : FEC) (pkts : List fecPacket)
    (hsort : List.Pairwise (fun a b => a.seqid < b.seqid) (f.rx ++ pkts))
    (hlen : f.rx.length + pkts.length < f.dataShards)
    (hcap : f.rx.length + pkts.length ≤ f.rxlimit) :
    feed f pkts = ({ f with rx := f.rx ++ pkts }, []) := by
  induction pkts generalizing f with
  | nil => simp [feed]
  | cons q qs ih =>
    have hq : ∀ x ∈ f.rx, x.seqid < q.seqid := by
      intro x hx
      exact (List.pairwise_append.mp hsort).2.2 x hx q (by simp)
    have h1 : input f q = ({ f with rx := f.rx ++ [q] }, []) := by
      apply input_append_small f q hq
      · simp at hlen ⊢
        omega
      · simp at hcap ⊢
        omega
    have h2 : feed ({ f with rx := f.rx ++ [q] } : FEC) qs =
        ({ f with rx := (f.rx ++ [q]) ++ qs }, []) := by
      apply ih
      · simpa using hsort
      · simp at hlen ⊢
        omega
      · simp at hcap ⊢
        omega
    simp only [feed, h1, h2, List.append_assoc, List.cons_append, List.nil_append,
      List.append_nil]

theorem scanShards_all_in (s B E : Nat) (l : List fecPacket) (i : Nat) (st : ScanState)
    (hin : ∀ e ∈ l, B ≤ e.seqid ∧ e.seqid ≤ E) :
    scanShards s B E l i st =
      { shards := l.foldl (fun sh e => sh.set (e.seqid % s) (some e.data)) st.shards,
        flags := l.foldl (fun fl e => fl.set (e.seqid % s) true) st.flags,
        numshard := st.numshard + l.length,
        numDataShard := st.numDataShard + l.countP (fun e => e.flag = typeData),
        first := if st.numshard = 0 ∧ l ≠ [] then (i : Int) else st.first,
        maxlen := l.foldl (fun m e => max m e.data.length) st.maxlen } := by
  induction l generalizing i st with
  | nil => simp [scanShards]
  | cons e rest ih =>
    have he := hin e (List.mem_cons_self e rest)
    rw [scanShards, if_neg (by omega), if_pos he.1]
    rw [ih (i + 1) _ (fun x hx => hin x (List.mem_cons_of_mem e hx))]
    refine ScanState.ext ?_ ?_ ?_ ?_ ?_ ?_
    · rfl
    · rfl
    · simp only [List.length_cons]
      omega
    · simp only [List.countP_cons]
      by_cases hft : e.flag = typeData
      · simp [hft]
        omega
      · simp [hft]
    · simp [Nat.succ_ne_zero]
    · rfl

theorem foldl_set_get (v : Nat → Option (List Byte)) (l : List Nat)
    (init : List (Option (List Byte))) (i : Nat) (hl : ∀ k ∈ l, k < init.length) :
    (l.foldl (fun sh k => sh.set k (v k)) init).get? i =
      if i ∈ l then some (v i) else init.get? i := by
  induction l generalizing init with
  | nil => simp
  | cons k rest ih =>
    simp only [List.foldl_cons]
    rw [ih (init.set k (v k)) (by simpa using fun x hx => hl x (List.mem_cons_of_mem k hx))]
    by_cases hir : i ∈ rest
    · simp [hir]
    · by_cases hik : i = k
      · subst hik
        rw [if_neg hir, if_pos (List.mem_cons_self i rest)]
        exact List.get?_set_eq_of_lt _ (hl i (List.mem_cons_self i rest))
      · rw [if_neg hir, List.get?_set_ne _ _ (fun h => hik h.symm), if_neg (by
          intro h
          rcases List.mem_cons.mp h with h | h
          · exact hik h
          · exact hir h)]

theorem foldl_setBool_get (l : List Nat) (init : List Bool) (i : Nat)
    (hl : ∀ k ∈ l, k < init.length) :
    (l.foldl (fun fl k => fl.set k true) init).get? i =
      if i ∈ l then some true else init.get? i := by
  induction l generalizing init with
  | nil => simp
  | cons k rest ih =>
    simp only [List.foldl_cons]
    rw [ih (init.set k true) (by simpa using fun x hx => hl x (List.mem_cons_of_mem k hx))]
    by_cases hir : i ∈ rest
    · simp [hir]
    · by_cases hik : i = k
      · subst hik
        rw [if_neg hir, if_pos (List.mem_cons_self i rest)]
        exact List.get?_set_eq_of_lt _ (hl i (List.mem_cons_self i rest))
      · rw [if_neg hir, List.get?_set_ne _ _ (fun h => hik h.symm), if_neg (by
          intro h
          rcases List.mem_cons.mp h with h | h
          · exact hik h
          · exact hir h)]

theorem groupPkt_seqid_mod (s B d : Nat) (pl : Nat → List Byte) (k : Nat)
    (hk : k < s) (hdvd : s ∣ B) : (groupPkt d B pl k).seqid % s = k := by
  obtain ⟨m, rfl⟩ := hdvd
  simp only [groupPkt]
  rw [Nat.mul_add_mod]
  exact Nat.mod_eq_of_lt hk

theorem foldl_shards_eq_mask (s B d : Nat) (pl : Nat → List Byte) (ks : List Nat)
    (hks : ∀ k ∈ ks, k < s) (hdvd : s ∣ B) :
    (ks.map (groupPkt d B pl)).foldl (fun sh e => sh.set (e.seqid % s) (some e.data))
      (List.replicate s (none : Option (List Byte))) = maskShards s ks pl := by
  rw [List.foldl_map]
  have hfun : ks.foldl (fun sh k => sh.set ((groupPkt d B pl k).seqid % s)
        (some (groupPkt d B pl k).data)) (List.replicate s none) =
      ks.foldl (fun sh k => sh.set k (some (pl k))) (List.replicate s none) := by
    apply List.foldl_ext
    intro sh k hk
    rw [groupPkt_seqid_mod s B d pl k (hks k hk) hdvd]
    rfl
  rw [hfun]
  apply List.ext_get?
  intro i
  rw [foldl_set_get (fun k => some (pl k)) ks (List.replicate s none) i
    (by simpa using hks)]
  simp only [maskShards]
  by_cases his : i < s
  · by_cases him : i ∈ ks
    · simp [him, his, List.get?_eq_getElem?, List.getElem?_map, List.getElem?_range]
    · simp [him, his, List.get?_eq_getElem?, List.getElem?_map, List.getElem?_range,
        List.getElem?_replicate]
  · have h1 : i ∉ ks := fun h => his (hks i h)
    have h2 : (List.range s)[i]? = (none : Option Nat) :=
      List.getElem?_eq_none (by simpa using Nat.le_of_not_lt his)
    have h3 : (List.replicate s (none : Option (List Byte)))[i]? = none :=
      List.getElem?_eq_none (by simpa using Nat.le_of_not_lt his)
    simp [h1, List.get?_eq_getElem?, List.getElem?_map, h2, h3]

theorem foldl_flags_eq_mask (s B d : Nat) (pl : Nat → List Byte) (ks : List Nat)
    (hks : ∀ k ∈ ks, k < s) (hdvd : s ∣ B) :
    (ks.map (groupPkt d B pl)).foldl (fun fl e => fl.set (e.seqid % s) true)
      (List.replicate s false) = (List.range s).map (fun k => decide (k ∈ ks)) := by
  rw [List.foldl_map]
  have hfun : ks.foldl (fun fl k => fl.set ((groupPkt d B pl k).seqid % s) true)
        (List.replicate s false) =
      ks.foldl (fun fl k => fl.set k true) (List.replicate s false) := by
    apply List.foldl_ext
    intro fl k hk
    rw [groupPkt_seqid_mod s B d pl k (hks k hk) hdvd]
  rw [hfun]
  apply List.ext_get?
  intro i
  rw [foldl_setBool_get ks (List.replicate s false) i (by simpa using hks)]
  by_cases his : i < s
  · by_cases him : i ∈ ks
    · simp [him, his, List.get?_eq_getElem?, List.getElem?_map, List.getElem?_range]
    · simp [him, his, List.get?_eq_getElem?, List.getElem?_map, List.getElem?_range,
        List.getElem?_replicate]
  · have h1 : i ∉ ks := fun h => his (hks i h)
    have h2 : (List.range s)[i]? = (none : Option Nat) :=
      List.getElem?_eq_none (by simpa using Nat.le_of_not_lt his)
    have h3 : (List.replicate s false)[i]? = (none : Option Bool) :=
      List.getElem?_eq_none (by simpa using Nat.le_of_not_lt his)
    simp [h1, List.get?_eq_getElem?, List.getElem?_map, h2, h3]

theorem foldl_maxlen_const (L : Nat) (l : List fecPacket)
    (h : ∀ e ∈ l, e.data.length = L) (m : Nat) :
    l.foldl (fun acc e => max acc e.data.length) m =
      if l = [] then m else max m L := by
  induction l generalizing m with
  | nil => simp
  | cons e rest ih =>
    simp only [List.foldl_cons, List.cons_ne_nil, if_false]
    rw [h e (List.mem_cons_self e rest)]
    rw [ih (fun x hx => h x (List.mem_cons_of_mem e hx)) (max m L)]
    split
    · rfl
    · rw [Nat.max_assoc, Nat.max_self]

theorem countP_data_map_groupPkt (d B : Nat) (pl : Nat → List Byte) (ks : List Nat) :
    (ks.map (groupPkt d B pl)).countP (fun e => e.flag = typeData) =
      ks.countP (fun k => k < d) := by
  rw [List.countP_map]
  apply List.countP_congr
  intro k hk
  by_cases hkd : k < d
  · simp [groupPkt, hkd, Function.comp]
  · simp [groupPkt, hkd, typeData, typeFEC, Function.comp]

theorem filterMap_congr_mem (fm gm : Nat → Option (List Byte)) (l : List Nat)
    (h : ∀ a ∈ l, fm a = gm a) : l.filterMap fm = l.filterMap gm := by
  induction l with
  | nil => rfl
  | cons a l ih =>
    rw [List.filterMap_cons, List.filterMap_cons,
      h a (List.mem_cons_self a l), ih (fun x hx => h x (List.mem_cons_of_mem a hx))]

theorem resliceShards_mask (s : Nat) (ks : List Nat) (pl : Nat → List Byte) (L : Nat)
    (hL : ∀ k, k < s → (pl k).length = L) :
    resliceShards (maskShards s ks pl) L = maskShards s ks pl := by
  unfold resliceShards maskShards
  rw [List.map_map]
  apply List.map_congr_left
  intro k hk
  rw [List.mem_range] at hk
  by_cases hkm : k ∈ ks
  · simp only [Function.comp, hkm, if_pos]
    rw [← hL k hk]
    simp [List.take_length]
  · simp [Function.comp, hkm]

theorem filterMap_if_mem (q : Nat → Bool) (g : Nat → List Byte) (l : List Nat) :
    l.filterMap (fun k => if q k then none else some (g k)) =
      (l.filter (fun k => ! q k)).map g := by
  induction l with
  | nil => rfl
  | cons a l ih =>
    rw [List.filterMap_cons, List.filter_cons]
    by_cases hq : q a
    · simp only [hq, if_pos, Bool.not_true, if_neg]
      simpa using ih
    · simp only [Bool.not_eq_true] at hq
      simp [hq, ih]

theorem mem_of_countP_lt (d : Nat) (ks : List Nat) (hnodup : ks.Nodup)
    (hlen : ks.length = d) (hall : ∀ k ∈ ks, k < d) :
    ∀ i < d, i ∈ ks := by
  intro i hi
  by_contra hmem
  have hsub : ks.toFinset ⊆ (Finset.range d).erase i := by
    intro k hk
    rw [List.mem_toFinset] at hk
    exact Finset.mem_erase.mpr ⟨fun h => hmem (h ▸ hk), Finset.mem_range.mpr (hall k hk)⟩
  have hcard1 : ks.toFinset.card = d := by
    rw [List.toFinset_card_of_nodup hnodup, hlen]
  have hcard2 : ((Finset.range d).erase i).card = d - 1 := by
    rw [Finset.card_erase_of_mem (Finset.mem_range.mpr hi), Finset.card_range]
  have := Finset.card_le_card hsub
  omega

theorem input_resolves_group (f : FEC) (d p B L j : Nat) (pl : Nat → List Byte)
    (ks : List Nat)
    (hd : f.dataShards = d) (hsz : f.shardSize = d + p)
    (hrx : f.rx = ks.map (groupPkt d B pl))
    (hdpos : 0 < d) (hs2 : 2 ≤ d + p)
    (hdvd : (d + p) ∣ B) (hwrap : B + (d + p) ≤ u32)
    (hL : ∀ k, k < d + p → (pl k).length = L)
    (hks : List.Pairwise (fun a b => a < b) (ks ++ [j])) (hjlt : j < d + p)
    (hlen : ks.length + 1 = d)
    (hrec : ¬ (ks ++ [j]).countP (fun k => k < d) = d →
      f.codec.reconstructFn (maskShards (d + p) (ks ++ [j]) pl) =
        some ((List.range (d + p)).map pl)) :
    input f (groupPkt d B pl j) =
      ({ f with rx := [] },
       ((List.range d).filter (fun k => ¬ k ∈ ks ++ [j])).map pl) := by
  have hksj : ∀ k ∈ ks, k < j := fun k hk =>
    (List.pairwise_append.mp hks).2.2 k hk j (List.mem_singleton_self j)
  have hks'lt : ∀ k ∈ ks ++ [j], k < d + p := by
    intro k hk
    rcases List.mem_append.mp hk with hk | hk
    · exact lt_trans (hksj k hk) hjlt
    · rw [List.mem_singleton] at hk
      omega
  have hseq : (groupPkt d B pl j).seqid = B + j := rfl
  have hrxlen : f.rx.length = d - 1 := by
    rw [hrx, List.length_map]
    omega
  have hfi : findInsert f.rx (groupPkt d B pl j).seqid = some f.rx.length := by
    apply findInsert_all_lt
    intro q hq
    rw [hrx] at hq
    rcases List.mem_map.mp hq with ⟨k, hk, rfl⟩
    show B + k < B + j
    have := hksj k hk
    omega
  rw [input_eq f (groupPkt d B pl j) f.rx.length hfi, insertAt_length_self]
  have hrx1 : f.rx ++ [groupPkt d B pl j] = (ks ++ [j]).map (groupPkt d B pl) := by
    rw [hrx, List.map_append, List.map_singleton]
  have hrx1len : (f.rx ++ [groupPkt d B pl j]).length = d := by
    rw [hrx1, List.length_map, List.length_append, List.length_singleton]
    omega
  have hmodj : (B + j) % (d + p) = j := by
    have h := groupPkt_seqid_mod (d + p) B d pl j hjlt hdvd
    rwa [hseq] at h
  have hsb : shardBeginOf f.shardSize (groupPkt d B pl j).seqid = B := by
    rw [hsz, hseq]
    unfold shardBeginOf
    rw [hmodj]
    omega
  have hse : shardEndOf f.shardSize (groupPkt d B pl j).seqid = B + (d + p) - 1 := by
    rw [hsz, hseq]
    unfold shardEndOf shardBeginOf
    rw [hmodj]
    have h1 : B + j - j = B := by omega
    rw [h1]
    exact Nat.mod_eq_of_lt (by unfold u32 at hwrap ⊢; omega)
  have hscan : scanOf f (f.rx ++ [groupPkt d B pl j]) f.rx.length (groupPkt d B pl j) =
      { shards := maskShards (d + p) (ks ++ [j]) pl,
        flags := (List.range (d + p)).map (fun k => decide (k ∈ ks ++ [j])),
        numshard := d,
        numDataShard := (ks ++ [j]).countP (fun k => k < d),
        first := 0,
        maxlen := L } := by
    unfold scanOf windowOf
    have e1 : f.rx.length - f.shardSize = 0 := by
      rw [hsz, hrxlen]
      omega
    have e2 : min (f.rx.length + f.shardSize)
        ((f.rx ++ [groupPkt d B pl j]).length - 1) =
        (f.rx ++ [groupPkt d B pl j]).length - 1 := by
      rw [hsz, hrxlen, hrx1len]
      omega
    rw [e1, e2]
    dsimp only
    rw [List.drop_zero, hrx1len]
    have e3 : d - 1 + 1 - 0 = d := by omega
    rw [e3]
    have e4 : (f.rx ++ [groupPkt d B pl j]).take d = f.rx ++ [groupPkt d B pl j] := by
      apply List.take_of_length_le
      rw [hrx1len]
    rw [e4, hrx1, hsb, hse]
    rw [scanShards_all_in _ _ _ _ _ _ (by
      intro e he
      rcases List.mem_map.mp he with ⟨k, hk, rfl⟩
      show B ≤ B + k ∧ B + k ≤ B + (d + p) - 1
      have := hks'lt k hk
      omega)]
    rw [hsz]
    refine ScanState.ext ?_ ?_ ?_ ?_ ?_ ?_
    · show ((ks ++ [j]).map (groupPkt d B pl)).foldl
        (fun sh e => sh.set (e.seqid % (d + p)) (some e.data))
        (List.replicate (d + p) none) = _
      exact foldl_shards_eq_mask (d + p) B d pl (ks ++ [j]) hks'lt hdvd
    · show ((ks ++ [j]).map (groupPkt d B pl)).foldl
        (fun fl e => fl.set (e.seqid % (d + p)) true)
        (List.replicate (d + p) false) = _
      exact foldl_flags_eq_mask (d + p) B d pl (ks ++ [j]) hks'lt hdvd
    · show 0 + ((ks ++ [j]).map (groupPkt d B pl)).length = d
      rw [List.length_map, List.length_append, List.length_singleton]
      omega
    · show 0 + ((ks ++ [j]).map (groupPkt d B pl)).countP (fun e => e.flag = typeData) = _
      rw [Nat.zero_add]
      exact countP_data_map_groupPkt d B pl (ks ++ [j])
    · show (if (0 = 0 ∧ (ks ++ [j]).map (groupPkt d B pl) ≠ []) then (0 : Int) else -1) = 0
      rw [if_pos]
      exact ⟨rfl, by simp⟩
    · show ((ks ++ [j]).map (groupPkt d B pl)).foldl (fun m e => max m e.data.length) 0 = L
      rw [foldl_maxlen_const L _ (by
        intro e he
        rcases List.mem_map.mp he with ⟨k, hk, rfl⟩
        exact hL k (hks'lt k hk)) 0]
      rw [if_neg (by simp)]
      exact Nat.zero_max L
  have hgate : f.dataShards ≤ (f.rx ++ [groupPkt d B pl j]).length ∧
      shardBeginOf f.shardSize (groupPkt d B pl j).seqid <
        shardEndOf f.shardSize (groupPkt d B pl j).seqid := by
    constructor
    · rw [hd, hrx1len]
    · rw [hsb, hse]
      omega
  have hremove : removeRange (f.rx ++ [groupPkt d B pl j]) (Int.toNat 0) d = [] := by
    unfold removeRange
    have h1 : (f.rx ++ [groupPkt d B pl j]).drop (Int.toNat 0 + d) = [] :=
      List.drop_eq_nil_of_le (by rw [hrx1len]; omega)
    rw [h1]
    simp
  by_cases hnd : (ks ++ [j]).countP (fun k => k < d) = d
  · have hlen2 : (ks ++ [j]).length = d := by
      rw [List.length_append, List.length_singleton]
      omega
    have hallq : ∀ k ∈ ks ++ [j], k < d := by
      have h := List.countP_eq_length.mp (by rw [hnd, hlen2])
      intro k hk
      simpa using h k hk
    have hnodup : (ks ++ [j]).Nodup := hks.imp Nat.ne_of_lt
    have hcov := mem_of_countP_lt d (ks ++ [j]) hnodup hlen2 hallq
    have hfilter : (List.range d).filter (fun k => ¬ k ∈ ks ++ [j]) = [] := by
      apply List.filter_eq_nil.mpr
      intro a ha
      simp [hcov a (List.mem_range.mp ha)]
    have hrg : resolveGroup f (f.rx ++ [groupPkt d B pl j]) f.rx.length
        (groupPkt d B pl j) = ([], []) := by
      unfold resolveGroup
      rw [if_pos hgate, hscan]
      dsimp only
      rw [hd, if_pos hnd, hremove]
    rw [hrg, hfilter]
    simp
  · have hrg : resolveGroup f (f.rx ++ [groupPkt d B pl j]) f.rx.length
        (groupPkt d B pl j) =
        ([], ((List.range d).filter (fun k => ¬ k ∈ ks ++ [j])).map pl) := by
      unfold resolveGroup
      rw [if_pos hgate, hscan]
      dsimp only
      rw [hd, if_neg hnd, if_pos (le_refl d),
        resliceShards_mask (d + p) (ks ++ [j]) pl L hL, hrec hnd]
      dsimp only
      rw [hremove]
      have hgetflag : ∀ k, k < d →
          ((List.range (d + p)).map (fun k2 => decide (k2 ∈ ks ++ [j]))).getD k false =
            decide (k ∈ ks ++ [j]) := by
        intro k hk
        have hk2 : k < d + p := by omega
        rw [List.getD_eq_getElem?_getD, List.getElem?_map, List.getElem?_range hk2]
        rfl
      have hgetcw : ∀ k, k < d →
          ((List.range (d + p)).map pl).getD k [] = pl k := by
        intro k hk
        have hk2 : k < d + p := by omega
        rw [List.getD_eq_getElem?_getD, List.getElem?_map, List.getElem?_range hk2]
        rfl
      have hcong : (List.range d).filterMap (fun k =>
          if ((List.range (d + p)).map (fun k2 => decide (k2 ∈ ks ++ [j]))).getD k false
          then none
          else some (((List.range (d + p)).map pl).getD k [])) =
          (List.range d).filterMap (fun k =>
            if decide (k ∈ ks ++ [j]) then none else some (pl k)) := by
        apply filterMap_congr_mem
        intro a ha
        rw [List.mem_range] at ha
        rw [hgetflag a ha, hgetcw a ha]
      rw [hcong, filterMap_if_mem (fun k => decide (k ∈ ks ++ [j])) pl (List.range d)]
      have hfc : (List.range d).filter (fun k => ! decide (k ∈ ks ++ [j])) =
          (List.range d).filter (fun k => ¬ k ∈ ks ++ [j]) := by
        apply List.filter_congr
        intro a ha
        simp [decide_not]
      rw [hfc]
    rw [hrg]
    simp

theorem feed_single (f : FEC) (x : fecPacket) :
    feed f [x] = ((input f x).1, (input f x).2) := by
  simp [feed]

theorem feed_group_scenario (rsNew : Nat → Nat → Option Codec) (rxl d p B L : Nat)
    (pl : Nat → List Byte) (W : List Nat) (f0 : FEC)
    (h0 : newFEC rsNew rxl d p = some f0)
    (hdpos : 0 < d) (hs2 : 2 ≤ d + p)
    (hdvd : (d + p) ∣ B) (hwrap : B + (d + p) ≤ u32)
    (hL : ∀ k, k < d + p → (pl k).length = L)
    (hW : ∀ x ∈ W, x < d + p) (hWnd : W.Nodup) (hWp : W.length ≤ p)
    (hleft : p < d + W.length)
    (hrec : ¬ ((((List.range (d + p)).filter (fun k => ¬ k ∈ W)).take d).countP
        (fun k => k < d) = d) →
      f0.codec.reconstructFn
        (maskShards (d + p)
          (((List.range (d + p)).filter (fun k => ¬ k ∈ W)).take d) pl) =
        some ((List.range (d + p)).map pl)) :
    feed f0 (((List.range (d + p)).filter (fun k => ¬ k ∈ W)).map (groupPkt d B pl)) =
      ({ f0 with
          rx := ((((List.range (d + p)).filter (fun k => ¬ k ∈ W)).drop d).map
            (groupPkt d B pl)) },
       ((List.range d).filter (fun k => k ∈ W)).map pl) := by
  obtain ⟨hrx0, hrxl0, hd0, hp0, hss0, hnext0, hpaws0, hcodec0, hge0⟩ :=
    newFEC_some rsNew rxl d p f0 h0
  set F := (List.range (d + p)).filter (fun k => ¬ k ∈ W) with hFdef
  have hFpair : List.Pairwise (fun a b => a < b) F :=
    (List.pairwise_lt_range (d + p)).filter _
  have hFnd : F.Nodup := hFpair.imp Nat.ne_of_lt
  have hFlt : ∀ k ∈ F, k < d + p := by
    intro k hk
    rw [hFdef, List.mem_filter, List.mem_range] at hk
    exact hk.1
  have hFnotW : ∀ k ∈ F, ¬ k ∈ W := by
    intro k hk
    rw [hFdef, List.mem_filter] at hk
    simpa using hk.2
  have hWsub : W.toFinset ⊆ Finset.range (d + p) := by
    intro a ha
    exact Finset.mem_range.mpr (hW a (List.mem_toFinset.mp ha))
  have hFfin : F.toFinset = Finset.range (d + p) \ W.toFinset := by
    ext a
    rw [List.mem_toFinset, hFdef, List.mem_filter, List.mem_range, Finset.mem_sdiff,
      Finset.mem_range, List.mem_toFinset]
    simp
  have hFlen : F.length = (d + p) - W.length := by
    rw [← List.toFinset_card_of_nodup hFnd, hFfin, Finset.card_sdiff hWsub,
      Finset.card_range, List.toFinset_card_of_nodup hWnd]
  have hdF : d ≤ F.length := by omega
  have htklen : (F.take d).length = d := by
    rw [List.length_take]
    omega
  have hdrop1 : ((F.take d).drop (d - 1)).length = 1 := by
    rw [List.length_drop, htklen]
    omega
  obtain ⟨jd, hjd⟩ := List.length_eq_one.mp hdrop1
  have htksplit : F.take d = F.take (d - 1) ++ [jd] := by
    conv_lhs => rw [← List.take_append_drop (d - 1) (F.take d)]
    rw [List.take_take, hjd]
    congr 2
    omega
  have hFsplit : F = (F.take (d - 1) ++ [jd]) ++ F.drop d := by
    rw [← htksplit, List.take_append_drop]
  have hjdF : jd ∈ F := by
    have h1 : jd ∈ F.take d := by
      rw [htksplit]
      exact List.mem_append.mpr (Or.inr (List.mem_singleton_self jd))
    exact List.take_subset d F h1
  have hjdlt : jd < d + p := hFlt jd hjdF
  have htkpair : List.Pairwise (fun a b => a < b) (F.take (d - 1) ++ [jd]) := by
    rw [← htksplit]
    exact hFpair.sublist (List.take_sublist d F)
  have hlen1 : (F.take (d - 1)).length = d - 1 := by
    rw [List.length_take]
    omega
  have hphase1 : feed f0 ((F.take (d - 1)).map (groupPkt d B pl)) =
      ({ f0 with rx := (F.take (d - 1)).map (groupPkt d B pl) }, []) := by
    have h := feed_fill f0 ((F.take (d - 1)).map (groupPkt d B pl))
      (by
        rw [hrx0, List.nil_append, List.pairwise_map]
        refine List.Pairwise.imp ?_ (hFpair.sublist (List.take_sublist (d - 1) F))
        intro a b hab
        show B + a < B + b
        omega)
      (by
        rw [hrx0, hd0, List.length_nil, List.length_map, hlen1]
        omega)
      (by
        rw [hrx0, hrxl0, List.length_nil, List.length_map, hlen1]
        omega)
    rw [h, hrx0, List.nil_append]
  have hphase2 : input ({ f0 with rx := (F.take (d - 1)).map (groupPkt d B pl) } : FEC)
      (groupPkt d B pl jd) =
      (({ f0 with rx := [] } : FEC),
       ((List.range d).filter (fun k => ¬ k ∈ F.take (d - 1) ++ [jd])).map pl) := by
    have hrec2 : ¬ (F.take (d - 1) ++ [jd]).countP (fun k => k < d) = d →
        ({ f0 with rx := (F.take (d - 1)).map (groupPkt d B pl) } : FEC).codec.reconstructFn
          (maskShards (d + p) (F.take (d - 1) ++ [jd]) pl) =
          some ((List.range (d + p)).map pl) := by
      rw [← htksplit]
      exact hrec
    exact input_resolves_group _ d p B L jd pl (F.take (d - 1)) hd0 hss0 rfl hdpos hs2
      hdvd hwrap hL htkpair hjdlt (by omega) hrec2
  have hphase3 : feed ({ f0 with rx := [] } : FEC) ((F.drop d).map (groupPkt d B pl)) =
      ({ f0 with rx := (F.drop d).map (groupPkt d B pl) }, []) := by
    have h := feed_fill ({ f0 with rx := [] } : FEC) ((F.drop d).map (groupPkt d B pl))
      (by
        rw [List.nil_append, List.pairwise_map]
        refine List.Pairwise.imp ?_ (hFpair.sublist (List.drop_sublist d F))
        intro a b hab
        show B + a < B + b
        omega)
      (by
        show ([] : List fecPacket).length + ((F.drop d).map (groupPkt d B pl)).length <
          f0.dataShards
        rw [hd0, List.length_nil, List.length_map, List.length_drop, hFlen]
        omega)
      (by
        show ([] : List fecPacket).length + ((F.drop d).map (groupPkt d B pl)).length ≤
          f0.rxlimit
        rw [hrxl0, List.length_nil, List.length_map, List.length_drop, hFlen]
        omega)
    rw [h]
    rw [List.nil_append]
  have e1 : feed f0 ((F.take (d - 1)).map (groupPkt d B pl) ++ [groupPkt d B pl jd]) =
      (({ f0 with rx := [] } : FEC),
       ((List.range d).filter (fun k => ¬ k ∈ F.take (d - 1) ++ [jd])).map pl) := by
    rw [feed_append, hphase1]
    dsimp only
    rw [feed_single, hphase2]
    rfl
  have e2 : feed f0 (((F.take (d - 1)).map (groupPkt d B pl) ++ [groupPkt d B pl jd]) ++
      (F.drop d).map (groupPkt d B pl)) =
      ({ f0 with rx := (F.drop d).map (groupPkt d B pl) },
       ((List.range d).filter (fun k => ¬ k ∈ F.take (d - 1) ++ [jd])).map pl) := by
    rw [feed_append, e1]
    dsimp only
    rw [hphase3]
    simp
  have hRfilter : (List.range d).filter (fun k => ¬ k ∈ F.take (d - 1) ++ [jd]) =
      (List.range d).filter (fun k => k ∈ W) := by
    rw [← htksplit]
    apply List.filter_congr
    intro a ha
    rw [List.mem_range] at ha
    apply decide_eq_decide.mpr
    constructor
    · intro hna
      by_contra hw
      apply hna
      have hadp : a ∈ (List.range d).filter (fun k => ¬ k ∈ W) := by
        rw [List.mem_filter, List.mem_range]
        exact ⟨ha, by simpa using hw⟩
      have hFdecomp : F = (List.range d).filter (fun k => ¬ k ∈ W) ++
          ((List.range p).map (fun x => d + x)).filter (fun k => ¬ k ∈ W) := by
        rw [hFdef, List.range_add, List.filter_append]
      have hdplen : ((List.range d).filter (fun k => ¬ k ∈ W)).length ≤ d := by
        have h1 := List.length_filter_le (fun k => decide (¬ k ∈ W)) (List.range d)
        rwa [List.length_range] at h1
      rw [hFdecomp, List.take_append_eq_append_take,
        List.take_of_length_le hdplen]
      exact List.mem_append.mpr (Or.inl hadp)
    · intro hw hmem
      exact hFnotW a (List.take_subset d F hmem) hw
  conv_lhs => rw [hFsplit, List.map_append, List.map_append, List.map_singleton]
  rw [e2, hRfilter]

theorem C4_no_overflow_reset_witness :
    ((input (input fecC4 ⟨0, typeData, [1]⟩).1 ⟨4294967293, typeData, [2]⟩).2 = []) ∧
    ((input (input fecC4 ⟨0, typeData, [1]⟩).1 ⟨4294967293, typeData, [2]⟩).1.rx =
      [⟨0, typeData, [1]⟩, ⟨4294967293, typeData, [2]⟩]) := by
  have h := C4_no_overflow_reset (input fecC4 ⟨0, typeData, [1]⟩).1
    ⟨4294967293, typeData, [2]⟩ 1 (by decide) (Or.inr (by decide))
  refine ⟨h.1, ?_⟩
  rw [h.2]
  decide

/-- The replication code: the codeword repeats the single data shard
`n` times.  A valid MDS erasure code for `dataShards = 1`. -/
def repCodec (n : Nat) : Codec :=
  { reconstructFn := fun sh => ((sh.filterMap id).head?).map (fun x => List.replicate n x),
    encodeFn := fun ds => ds.head?.map (fun x => List.replicate (n - 1) x) }

/-- A `dataShards = 1`, `parityShards = 1` instance with the
replication code. -/
def fec11 : FEC :=
  { rx := [], rxlimit := 4, dataShards := 1, parityShards := 1, shardSize := 2,
    next := 0, paws := (4294967295 / 2 - 1) * 2, codec := repCodec 2 }

/-- A `dataShards = 1`, `parityShards = 2` instance with the
replication code. -/
def fec12 : FEC :=
  { rx := [], rxlimit := 4, dataShards := 1, parityShards := 2, shardSize := 3,
    next := 0, paws := (4294967295 / 3 - 1) * 3, codec := repCodec 3 }

/-- A constant payload function. -/
def plc : Nat → List Byte := fun _ => [7, 7, 7, 7]

/-- A one-byte payload function carrying the shard index. -/
def plIdx : Nat → List Byte := fun k => [k % 256]

/-- C1 counterexample: `dataShards = 1`, `parityShards = 2`, group
seqids 0 (data), 1, 2 (parity).  Withholding exactly one parity packet
(seqid 2) and feeding the remaining packets `[data 0, parity 1]` in
ascending order yields ONE recovered payload, not zero: the data packet
resolves its group alone (`presentData = dataShards`) and is removed,
after which the arriving parity packet re-triggers reconstruction of
the already-delivered data shard. -/
theorem C1_counterexample :
    newFEC (fun _ _ => some (repCodec 3)) 4 1 2 = some fec12 ∧
    (feed fec12 [⟨0, typeData, [7, 7, 7, 7]⟩, ⟨1, typeFEC, [7, 7, 7, 7]⟩]).2 =
      [[7, 7, 7, 7]] ∧
    (feed fec12 [⟨0, typeData, [7, 7, 7, 7]⟩, ⟨1, typeFEC, [7, 7, 7, 7]⟩]).2 ≠ [] :=
  ⟨rfl, by decide, by decide⟩

/-- C1 amended: for a complete shard group `[B, B + shardSize)` with
equal-length payloads, withholding a set `W` of up to `parityShards`
packets and feeding the remaining packets in ascending seqid order —
provided fewer than `dataShards` fed packets remain after the group
resolves (`parityShards < dataShards + |W|`), and the opaque capability
reconstructs the true codeword — yields as recovered payloads exactly
the withheld DATA shard payloads, in ascending shard order, each
matching the original bytes (zero payloads when only parity shards are
withheld); the fed packets beyond the resolution point stay in the
queue. -/
theorem C1_recovery (rsNew : Nat → Nat → Option Codec) (rxl d p B L : Nat)
    (pl : Nat → List Byte) (W : List Nat) (f0 : FEC)
    (h0 : newFEC rsNew rxl d p = some f0)
    (hdpos : 0 < d) (hs2 : 2 ≤ d + p)
    (hdvd : (d + p) ∣ B) (hwrap : B + (d + p) ≤ u32)
    (hL : ∀ k, k < d + p → (pl k).length = L)
    (hW : ∀ x ∈ W, x < d + p) (hWnd : W.Nodup) (hWp : W.length ≤ p)
    (hleft : p < d + W.length)
    (hrec : f0.codec.reconstructFn
        (maskShards (d + p)
          (((List.range (d + p)).filter (fun k => ¬ k ∈ W)).take d) pl) =
        some ((List.range (d + p)).map pl)) :
    feed f0 (((List.range (d + p)).filter (fun k => ¬ k ∈ W)).map (groupPkt d B pl)) =
      ({ f0 with
          rx := ((((List.range (d + p)).filter (fun k => ¬ k ∈ W)).drop d).map
            (groupPkt d B pl)) },
       ((List.range d).filter (fun k => k ∈ W)).map pl) :=
  feed_group_scenario rsNew rxl d p B L pl W f0 h0 hdpos hs2 hdvd hwrap hL hW hWnd hWp
    hleft (fun _ => hrec)

theorem C1_recovery_witness :
    feed fec11 (((List.range 2).filter (fun k => ¬ k ∈ [0])).map (groupPkt 1 0 plc)) =
      ({ fec11 with
          rx := ((((List.range 2).filter (fun k => ¬ k ∈ [0])).drop 1).map
            (groupPkt 1 0 plc)) },
       ((List.range 1).filter (fun k => k ∈ [0])).map plc) :=
  C1_recovery (fun _ _ => some (repCodec 2)) 4 1 1 0 4 plc [0] fec11 rfl
    (by decide) (by decide) (by decide) (by decide) (fun k _ => rfl)
    (by decide) (by decide) (by decide) (by decide) (by decide)

/-- C5 counterexample: `dataShards = 1`, `parityShards = 1`.  Feeding
the complete group `[data 0, parity 1]` — every packet, in ascending
order — yields ONE recovered payload, not zero: the data packet resolves
the group and is removed, and the parity packet then re-reconstructs
the data shard (the queue also retains no memory of resolved groups, so
the spec's "no entry of that group remains" fails in general for
in-order feeds with surviving parity stragglers). -/
theorem C5_counterexample :
    newFEC (fun _ _ => some (repCodec 2)) 4 1 1 = some fec11 ∧
    (feed fec11 [⟨0, typeData, [7, 7, 7, 7]⟩, ⟨1, typeFEC, [7, 7, 7, 7]⟩]).2 =
      [[7, 7, 7, 7]] ∧
    (feed fec11 [⟨0, typeData, [7, 7, 7, 7]⟩, ⟨1, typeFEC, [7, 7, 7, 7]⟩]).2 ≠ [] :=
  ⟨rfl, by decide, by decide⟩

/-- C5 amended: feeding all `shardSize` packets of one complete group
in ascending seqid order, with `parityShards < dataShards` and
equal-length payloads, yields zero recovered payloads across all the
calls; afterwards the queue contains exactly the group's parity
packets (the data entries were removed when the group resolved; the
parity stragglers sit in the queue until capacity eviction). -/
theorem C5_no_loss_in_order (rsNew : Nat → Nat → Option Codec) (rxl d p B L : Nat)
    (pl : Nat → List Byte) (f0 : FEC)
    (h0 : newFEC rsNew rxl d p = some f0)
    (hdpos : 0 < d) (hs2 : 2 ≤ d + p) (hpd : p < d)
    (hdvd : (d + p) ∣ B) (hwrap : B + (d + p) ≤ u32)
    (hL : ∀ k, k < d + p → (pl k).length = L) :
    feed f0 ((List.range (d + p)).map (groupPkt d B pl)) =
      ({ f0 with rx := (((List.range (d + p)).drop d).map (groupPkt d B pl)) }, []) := by
  have hF : (List.range (d + p)).filter (fun k => ¬ k ∈ ([] : List Nat)) =
      List.range (d + p) := by
    apply List.filter_eq_self.mpr
    intro a ha
    simp
  have h := feed_group_scenario rsNew rxl d p B L pl [] f0 h0 hdpos hs2 hdvd hwrap hL
    (by simp) List.nodup_nil (by simp) (by simpa using hpd)
    (by
      intro hcond
      exfalso
      apply hcond
      rw [hF, List.take_range]
      have hmin : min d (d + p) = d := by omega
      rw [hmin]
      have hall : (List.range d).countP (fun k => k < d) = (List.range d).length :=
        List.countP_eq_length.mpr (by
          intro a ha
          simpa using List.mem_range.mp ha)
      rw [hall, List.length_range])
  rw [hF] at h
  have hR : (List.range d).filter (fun k => k ∈ ([] : List Nat)) = [] := by simp
  rw [hR] at h
  simpa using h

theorem C5_no_loss_in_order_witness :
    feed fecC4 ((List.range 3).map (groupPkt 2 0 plIdx)) =
      ({ fecC4 with rx := (((List.range 3).drop 2).map (groupPkt 2 0 plIdx)) }, []) :=
  C5_no_loss_in_order crsStub 8 2 1 0 1 plIdx fecC4 rfl (by decide) (by decide)
    (by decide) (by decide) (by decide) (fun k _ => rfl)

end KcpFec
